import Mathlib

set_option maxHeartbeats 1000000

/-!
Verification development for the psm_utils idXML / Percolator interchange
core (src/psm_utils/io/idxml.py and src/psm_utils/io/percolator.py).

Python strings are modelled as `List Char`; the Python string operations used
by the two modules (split, join, replace, strip) are defined below and the
module functions are translated on top of them. Fallible operations are
modelled with `Option` / `Except`.
-/

namespace PsmSpec

/-- Whitespace characters removed by Python str.strip(), restricted to the
characters that can occur in the tab-separated files handled here. -/
def wsChar (c : Char) : Bool :=
  c = ' ' || c = '\t' || c = '\n' || c = '\r'

/-- Python str.strip(): drop whitespace from both ends of the string. -/
def stripWS (s : List Char) : List Char :=
  ((s.dropWhile wsChar).reverse.dropWhile wsChar).reverse

/-- Python str.strip("."): drop dots from both ends of the string. -/
def stripDots (s : List Char) : List Char :=
  ((s.dropWhile (fun c => c = '.')).reverse.dropWhile (fun c => c = '.')).reverse

/-- Scanner for Python str.split(sep) with nonempty separator `p0 :: pr`:
`acc` holds the current field in reverse, `fuel` bounds the recursion (the
wrapper supplies the input length, which suffices because every step consumes
at least one character). -/
def splitGo (p0 : Char) (pr : List Char) : Nat → List Char → List Char → List (List Char)
  | 0, _, acc => [acc.reverse]
  | _ + 1, [], acc => [acc.reverse]
  | fuel + 1, c :: r, acc =>
    if (p0 :: pr).isPrefixOf (c :: r) then
      acc.reverse :: splitGo p0 pr fuel (r.drop pr.length) []
    else
      splitGo p0 pr fuel r (c :: acc)

/-- Python str.split(sep). The `sep = []` case never occurs in the source
(Python raises on an empty separator); it is modelled as no split. -/
def splitOnL (sep s : List Char) : List (List Char) :=
  match sep with
  | [] => [s]
  | p0 :: pr => splitGo p0 pr s.length s []

/-- Python sep.join(parts). -/
def intercalateL (sep : List Char) : List (List Char) → List Char
  | [] => []
  | [a] => a
  | a :: b :: t => a ++ sep ++ intercalateL sep (b :: t)

/-- Scanner for Python str.replace(pat, rep) (all occurrences, scanning left
to right) for a nonempty pattern `p0 :: pr`, with a recursion bound supplied
by the wrapper. -/
def replaceGo (p0 : Char) (pr rep : List Char) : Nat → List Char → List Char
  | 0, s => s
  | _ + 1, [] => []
  | fuel + 1, c :: r =>
    if (p0 :: pr).isPrefixOf (c :: r) then
      rep ++ replaceGo p0 pr rep fuel (r.drop pr.length)
    else
      c :: replaceGo p0 pr rep fuel r

/-- Python str.replace(pat, rep) for a nonempty pattern. -/
def replaceAllL (p0 : Char) (pr rep s : List Char) : List Char :=
  replaceGo p0 pr rep s.length s

/-- Python str.replace(pat, rep, 1): replace the first occurrence only. -/
def replaceFirstL (pat rep s : List Char) : List Char :=
  match s with
  | [] => []
  | c :: r =>
    if pat.isPrefixOf (c :: r) then rep ++ (c :: r).drop pat.length
    else c :: replaceFirstL pat rep r

/-!
Modification-pattern matching, idxml.py lines 30-33. The three patterns

  MOD_PATTERN       = \(((?:[^)(]+|\((?:[^)(]+|\([^)(]*\))*\))*)\)
  MOD_PATTERN_NTERM = ^\.\[((?:[^][]+|\[(?:[^][]+|\[[^][]*\])*\])*)\]
  MOD_PATTERN_CTERM = \.\[((?:[^][]+|\[(?:[^][]+|\[[^][]*\])*\])*)\]$

all match one delimited group whose content may contain two further levels of
balanced nested delimiters. The grammar is deterministic (a chunk may not
contain a delimiter, so the extent of the body is forced), which the
recursive matcher below follows: `lvl` is the number of nesting levels still
permitted below the current group and `fuel` bounds the recursion.
-/

/-- Matcher for the body of a delimited group: consume input up to (and
excluding) the matching closer, return the body text and the remainder after
the closer. Fails on unbalanced input or when nesting exceeds `lvl`. -/
def groupBody (op cl : Char) : Nat → Nat → List Char → Option (List Char × List Char)
  | 0, _, _ => none
  | _ + 1, _, [] => none
  | fuel + 1, lvl, c :: r =>
    if c = cl then some ([], r)
    else if c = op then
      match lvl with
      | 0 => none
      | lvl' + 1 =>
        match groupBody op cl fuel lvl' r with
        | none => none
        | some (inner, rest1) =>
          match groupBody op cl fuel (lvl' + 1) rest1 with
          | none => none
          | some (tail, rest2) => some (op :: (inner ++ cl :: tail), rest2)
    else
      match groupBody op cl fuel lvl r with
      | none => none
      | some (tail, rest) => some (c :: tail, rest)

/-- Match one outer modification group at the head of `s`, with the two inner
nesting levels the source patterns permit; returns the captured group content
(the \1 capture) and the rest of the input. -/
def matchGroup (op cl : Char) (s : List Char) : Option (List Char × List Char) :=
  match s with
  | c :: r => if c = op then groupBody op cl (r.length + 1) 2 r else none
  | [] => none

/-- Substitution MOD_PATTERN.sub(r"[\1]", s) (idxml.py line 144): every
parenthesised modification group is rewritten to the same content in square
brackets; text without a match is passed through unchanged. -/
def modSub : Nat → List Char → List Char
  | 0, s => s
  | _ + 1, [] => []
  | fuel + 1, c :: r =>
    match matchGroup '(' ')' (c :: r) with
    | some (content, rest) => '[' :: (content ++ ']' :: modSub fuel rest)
    | none => c :: modSub fuel r

/-- MOD_PATTERN substitution with sufficient fuel. -/
def modPatternSub (s : List Char) : List Char := modSub s.length s

/-- Substitution MOD_PATTERN_NTERM.sub(r"[\1]-", s), applied when the string
starts with ".[" (idxml.py lines 145-146); the pattern is anchored at the
start of the string. -/
def ntermStep (s : List Char) : List Char :=
  if s.take 2 = ['.', '['] then
    match groupBody '[' ']' ((s.drop 2).length + 1) 2 (s.drop 2) with
    | some (content, rest) => '[' :: (content ++ ']' :: '-' :: rest)
    | none => s
  else s

/-- Scan for MOD_PATTERN_CTERM.sub(r"-[\1]", s): the pattern is anchored at
the end of the string, so the leftmost dot-plus-bracket-group that reaches
the end of the string is replaced (idxml.py lines 147-148). -/
def ctermScan : List Char → List Char
  | [] => []
  | c :: r =>
    if c = '.' then
      match r with
      | '[' :: r2 =>
        match groupBody '[' ']' (r2.length + 1) 2 r2 with
        | some (content, []) => '-' :: '[' :: (content ++ [']'])
        | _ => c :: ctermScan r
      | _ => c :: ctermScan r
    else c :: ctermScan r

/-- CTERM substitution guarded by the source check sequence[-1] == "]". -/
def ctermStep (s : List Char) : List Char :=
  if s.getLast? = some ']' then ctermScan s else s

/-- Notation-translation steps of IdXMLReader._parse_peptidoform (idxml.py
lines 144-149), before the charge suffix is appended: parenthesised inline
modifications to brackets, terminal ".[mod]" groups to "[mod]-" / "-[mod]",
then strip remaining leading and trailing dots. -/
def parsePeptidoformSeq (s : List Char) : List Char :=
  stripDots (ctermStep (ntermStep (modPatternSub s)))

/-- IdXMLReader._parse_peptidoform (idxml.py lines 131-152): translate the
native sequence and append the "/charge" suffix. -/
def parsePeptidoformIdXML (s : List Char) (charge : Int) : List Char :=
  parsePeptidoformSeq s ++ '/' :: (toString charge).toList

/-- IdXMLWriter._convert_proforma_to_unimod (idxml.py lines 445-458):
square brackets to parentheses, then the two guarded terminal rewrites, the
second applied on the reversed string exactly as in the source. -/
def convertProformaToUnimod (s : List Char) : List Char :=
  let s1 := s.map (fun c => if c = '[' then '(' else if c = ']' then ')' else c)
  let s2 :=
    if s1.take 2 = ['(', '('] then
      replaceFirstL [')', '-'] ['.'] (replaceFirstL ['(', '('] ['.', '['] s1)
    else s1
  if 2 ≤ s2.length ∧ s2.drop (s2.length - 2) = [')', ')'] then
    (replaceFirstL ['-', '('] ['.'] (replaceFirstL [')', ')'] ['.', ']'] s2.reverse)).reverse
  else s2

/-!
Rescoring feature allow-list and idXML reading, idxml.py lines 37-248.
-/

/-- RESCORING_FEATURE_LIST (idxml.py lines 37-75) as Python evaluates it.
Note the two places where a comma is missing in the source and adjacent
string literals are therefore concatenated into a single element:
"isotope_error" "MS:1002049" and "SAGE:ln(-poisson)" "SAGE:ln(delta_best)". -/
def RESCORING_FEATURE_LIST : List String := [
  "isotope_errorMS:1002049",
  "MS:1002050",
  "MSGF:ScoreRatio",
  "MSGF:Energy",
  "MSGF:lnEValue",
  "MSGF:lnExplainedIonCurrentRatio",
  "MSGF:lnNTermIonCurrentRatio",
  "MSGF:lnCTermIonCurrentRatio",
  "MSGF:lnMS2IonCurrent",
  "MSGF:MeanErrorTop7",
  "MSGF:sqMeanErrorTop7",
  "MSGF:StdevErrorTop7",
  "XTANDEM:hyperscore",
  "XTANDEM:deltascore",
  "MS:1001330",
  "hyperscore",
  "nextscore",
  "COMET:deltaCn",
  "COMET:deltaLCn",
  "COMET:lnExpect",
  "MS:1002252",
  "MS:1002255",
  "COMET:lnNumSP",
  "COMET:lnRankSP",
  "COMET:IonFrac",
  "MS:1001171",
  "MASCOT:delta_score",
  "CONCAT:lnEvalue",
  "CONCAT:deltaLnEvalue",
  "SAGE:ln(-poisson)SAGE:ln(delta_best)",
  "SAGE:ln(delta_next)",
  "SAGE:ln(matched_intensity_pct)",
  "SAGE:longest_b",
  "SAGE:longest_y",
  "SAGE:longest_y_pct",
  "SAGE:matched_peaks",
  "SAGE:scored_candidates"]

/-- Digits of a decimal numeral to a natural number. -/
def digitsToNat (ds : List Char) : Nat :=
  ds.foldl (fun n c => n * 10 + (c.toNat - '0'.toNat)) 0

/-- Parser model of Python int(s): optional surrounding whitespace, optional
sign, then a nonempty digit string. A ValueError is modelled as `none`. -/
def pyIntParse (s : String) : Option Int :=
  let t := stripWS s.toList
  match t with
  | '-' :: ds => if ds ≠ [] ∧ ds.all Char.isDigit then some (-(digitsToNat ds : Int)) else none
  | '+' :: ds => if ds ≠ [] ∧ ds.all Char.isDigit then some ((digitsToNat ds : Int)) else none
  | ds => if ds ≠ [] ∧ ds.all Char.isDigit then some ((digitsToNat ds : Int)) else none

/-- Optionally signed nonempty digit string (exponent part of a float). -/
def signedDigits (t : List Char) : Bool :=
  match t with
  | '-' :: ds => !ds.isEmpty && ds.all Char.isDigit
  | '+' :: ds => !ds.isEmpty && ds.all Char.isDigit
  | ds => !ds.isEmpty && ds.all Char.isDigit

/-- Exponent suffix of a Python float literal: empty, or e/E followed by an
optionally signed digit string. -/
def expTail (t : List Char) : Bool :=
  match t with
  | [] => true
  | 'e' :: r => signedDigits r
  | 'E' :: r => signedDigits r
  | _ => false

/-- Unsigned numeric core of a Python float literal: digits with an optional
fractional part, or a leading dot with digits, then an optional exponent. -/
def floatCore (t : List Char) : Bool :=
  let ip := t.takeWhile Char.isDigit
  let r1 := t.dropWhile Char.isDigit
  match r1 with
  | '.' :: r2 =>
    let fp := r2.takeWhile Char.isDigit
    let r3 := r2.dropWhile Char.isDigit
    (!ip.isEmpty || !fp.isEmpty) && expTail r3
  | _ => !ip.isEmpty && expTail r1

/-- Acceptance model of Python float(s): optional surrounding whitespace,
optional sign, then a numeric core or inf / infinity / nan (case
insensitive). -/
def isFloatStr (s : String) : Bool :=
  let t := stripWS s.toList
  let u := match t with
    | '+' :: r => r
    | '-' :: r => r
    | r => r
  floatCore u || u.map Char.toLower = "inf".toList
    || u.map Char.toLower = "infinity".toList || u.map Char.toLower = "nan".toList

/-- IdXMLReader._is_float (idxml.py lines 227-238) applied to the result of
getMetaValue: a missing value (None) is not a float, otherwise Python
float(value) must succeed. -/
def isFloatMeta (v : Option String) : Bool :=
  match v with
  | none => false
  | some s => isFloatStr s

/-- Peptide hit of the idXML object graph as seen by the reader: the native
sequence string, charge, the meta-value keys in getKeys order, and the
meta-value mapping. -/
structure IdXMLHit where
  sequence : String
  charge : Int
  keys : List String
  meta : String → Option String

/-- IdXMLReader._get_rescoring_features (idxml.py lines 214-225): the keys of
the hit restricted to the fixed allow-list, keeping the key order of the
hit. -/
def getRescoringFeatures (hit : IdXMLHit) : List String :=
  hit.keys.filter (fun k => decide (k ∈ RESCORING_FEATURE_LIST))

/-- Rescoring-features mapping built by IdXMLReader._parse_psm (idxml.py
lines 190-194): the derived feature keys whose meta values parse as floats;
float(value) is represented by the accepted value string itself. -/
def computeRescoringFeatures (featureKeys : List String) (hit : IdXMLHit) :
    List (String × String) :=
  featureKeys.filterMap (fun k =>
    match hit.meta k with
    | some v => if isFloatStr v then some (k, v) else none
    | none => none)

/-- Peptide identification record as needed for the reader-side claims. -/
structure IdXMLPeptideIdR where
  hits : List IdXMLHit

/-- Derivation of the allow-listed feature keys at reader construction
(idxml.py line 99): from the first hit of the first identification record;
the emptiness checks of _parse_idxml are modelled as `none`. -/
def initRescoringFeatures (peptideIds : List IdXMLPeptideIdR) : Option (List String) :=
  match peptideIds with
  | [] => none
  | pid :: _ =>
    match pid.hits with
    | [] => none
    | h :: _ => some (getRescoringFeatures h)

/-- IdXMLReader._is_decoy (idxml.py lines 240-248): missing target_decoy
meta value gives None, otherwise the boolean comparison with "decoy". -/
def isDecoyHit (hit : IdXMLHit) : Option Bool :=
  match hit.meta "target_decoy" with
  | some v => some (decide (v = "decoy"))
  | none => none

/-- Lexicographic order on character lists (the order of the external string
set). -/
def lexLe : List Char → List Char → Bool
  | [], _ => true
  | _ :: _, [] => false
  | a :: as, b :: bs => if a < b then true else if a = b then lexLe as bs else false

/-- Lexicographic order on strings. -/
def strLe (a b : String) : Bool := lexLe a.toList b.toList

/-- Modelled from the external library: pyopenms
PeptideHit.extractProteinAccessionsSet returns the accessions of the peptide
evidences of the hit as a set (std::set semantics: deduplicated, iterated in
sorted order). The repository code (idxml.py lines 177-179) only converts
each element of that set to a string, so the protein list of the PSM is the
sorted deduplicated accession list. -/
def extractProteinAccessionsSet (evidences : List String) : List String :=
  List.insertionSort (fun a b => strLe a b = true) evidences.dedup

/-- Protein list of the parsed PSM (idxml.py lines 177-179). -/
def proteinListOfHit (evidences : List String) : List String :=
  extractProteinAccessionsSet evidences

/-!
idXML writer merge path, idxml.py lines 324-369.
-/

/-- Python pathlib.Path(s).stem: the final path component without its last
suffix (a leading dot alone does not start a suffix). -/
def stem (s : String) : String :=
  let base := (s.splitOn "/").getLastD s
  let parts := base.splitOn "."
  match parts with
  | [] => base
  | [_] => base
  | ["", _] => base
  | _ => String.intercalate "." parts.dropLast

/-- Peptide hit of the idXML object graph as mutated by the writer: auxiliary
meta values are numeric (the values written by _update_peptide_hit are the
rescoring feature floats). -/
structure OmsPeptideHit where
  sequence : String
  charge : Int
  score : Rat
  rank : Int
  meta : String → Option Rat

/-- PSM fields used by the update-in-place write path: the native-notation
sequence stored in provenance_data, score, 1-based rank and the
rescoring-features mapping. -/
structure WPsm where
  provNative : String
  score : Rat
  rank : Int
  rescoringFeatures : List (String × Rat)

/-- pyopenms setMetaValue on the meta mapping. -/
def setMetaValue (m : String → Option Rat) (k : String) (v : Rat) : String → Option Rat :=
  fun q => if q = k then some v else m q

/-- IdXMLWriter._update_peptide_hit (idxml.py lines 360-369): overwrite
score, rank (1-based to 0-based) and set every rescoring feature whose key is
not in the fixed allow-list as a meta value. -/
def updatePeptideHit (hit : OmsPeptideHit) (psm : WPsm) : OmsPeptideHit :=
  { hit with
    score := psm.score
    rank := psm.rank - 1
    meta := psm.rescoringFeatures.foldl
      (fun m fv => if fv.1 ∈ RESCORING_FEATURE_LIST then m else setMetaValue m fv.1 fv.2)
      hit.meta }

/-- Peptide identification record of the idXML object graph (fields touched
by the merge path). -/
structure OmsPeptideId where
  spectrumRef : String
  mergeIndex : Option Nat
  mz : Rat
  rt : Rat
  hits : List OmsPeptideHit

/-- Protein identification record of the idXML object graph: the run list
(spectra_data) and the protein hits. -/
structure OmsProteinId where
  spectraData : List String
  hits : List String

/-- Construction of hit_dict and its lookup (idxml.py lines 346-352): the
dictionary maps the native sequence stored in provenance_data to the PSM; a
later PSM with the same key overwrites an earlier one. A missing key is the
KeyError of line 352, modelled as `none`. -/
def hitLookup (psms : List WPsm) (seq : String) : Option WPsm :=
  psms.reverse.find? (fun p => p.provNative == seq)

/-- Option-valued map over a list, failing when any element fails. -/
def mapOpt (f : α → Option β) : List α → Option (List β)
  | [] => some []
  | a :: l =>
    match f a with
    | none => none
    | some b =>
      match mapOpt f l with
      | none => none
      | some bs => some (b :: bs)

/-- Run resolution of _update_existing_ids (idxml.py lines 333-337): with
more than one run the id_merge_index meta value indexes the run list, else
the single first run is used; missing meta value or index out of range is a
Python error, modelled as `none`. -/
def resolveRunW (spectrumFiles : List String) (pid : OmsPeptideId) : Option String :=
  if 1 < spectrumFiles.length then
    match pid.mergeIndex with
    | some i => spectrumFiles.get? i
    | none => none
  else spectrumFiles.get? 0

/-- Update of one peptide identification record (idxml.py lines 338-356):
look up the PSM bucket for the record, match every hit by its native
sequence through hit_dict, update it in place and store the updated hits.
The psm_dict chain psm_dict[None][run][spectrum_reference] is modelled as a
total bucket function; a hit whose sequence has no matching PSM is the
KeyError of line 352 and fails the update. -/
def updateRecord (spectrumFiles : List String) (psmDict : String → String → List WPsm)
    (pid : OmsPeptideId) : Option OmsPeptideId :=
  match resolveRunW spectrumFiles pid with
  | none => none
  | some run =>
    match mapOpt
        (fun h => (hitLookup (psmDict run pid.spectrumRef) h.sequence).map (updatePeptideHit h))
        pid.hits with
    | none => none
    | some hits2 => some { pid with hits := hits2 }

/-- IdXMLWriter._update_existing_ids (idxml.py lines 324-358): resolve the
run names from the first protein record, update every peptide identification
record, and keep the protein records as they are for the final store. -/
def updateExistingIds (proteinIds : List OmsProteinId)
    (psmDict : String → String → List WPsm) (peptideIds : List OmsPeptideId) :
    Option (List OmsProteinId × List OmsPeptideId) :=
  match proteinIds with
  | [] => none
  | p0 :: _ =>
    match mapOpt (updateRecord (p0.spectraData.map stem) psmDict) peptideIds with
    | none => none
    | some pids2 => some (proteinIds, pids2)

/-!
Percolator Tab codec, percolator.py.
-/

/-- Protein separator "|||" of the Percolator reader and writer
(percolator.py lines 71 and 267). -/
def pipeSepTail : List Char := ['|', '|']

/-- Tab delimiter as a one-character separator list. -/
def tabChar : List Char := ['\t']

/-- Proteins field of _psm_to_entry (percolator.py lines 331-333):
"|||".join(protein_list) for a nonempty list; an empty (falsy) list gives
None, which csv.DictWriter serialises as the empty field. -/
def proteinsField (ps : List (List Char)) : List Char :=
  match ps with
  | [] => []
  | _ :: _ => intercalateL ('|' :: pipeSepTail) ps

/-- Replacement performed by _PercolatorTabIO.write (percolator.py lines
386-389): every occurrence of the protein separator "|||" becomes a tab. -/
def pipeToTab (s : List Char) : List Char :=
  replaceAllL '|' pipeSepTail tabChar s

/-- A written data line: csv.DictWriter joins the row fields and the proteins
field with tabs, then _PercolatorTabIO.write replaces the protein separator
by tabs. The line terminator is elided; the csv layer strips it on read. -/
def packLine (row ps : List (List Char)) : List Char :=
  pipeToTab (intercalateL tabChar (row ++ [proteinsField ps]))

/-- Data-line processing of _PercolatorTabIO.__iter__ (percolator.py lines
375-381): strip the line, split on tabs, keep the first
numberOfColumns - 1 fields, re-join every remaining field with "|||" into
one trailing field, and emit the line re-joined with tabs. -/
def iterLine (numberOfColumns : Nat) (line : List Char) : List Char :=
  let r := splitOnL tabChar (stripWS line)
  intercalateL tabChar
    (r.take (numberOfColumns - 1) ++ [intercalateL ('|' :: pipeSepTail) (r.drop (numberOfColumns - 1))])

/-- Read-side protein-list recovery: the processed line is parsed by
csv.DictReader (tab split), and _parse_entry splits the proteins entry on
"|||" (percolator.py lines 108 and 178-184). -/
def readProteins (numberOfColumns : Nat) (line : List Char) : List (List Char) :=
  splitOnL ('|' :: pipeSepTail)
    ((splitOnL tabChar (iterLine numberOfColumns line)).getD (numberOfColumns - 1) [])

/-!
Charge-column inference and peptide parsing of PercolatorTabReader,
percolator.py lines 123-167.
-/

/-- Explicit charge column search of _infer_charge_columns (percolator.py
lines 132-136): the loop over ["charge", "Charge"] keeps the last name found
in the header fieldnames. -/
def chargeColumnOf (fieldnames : List String) : Option String :=
  ["charge", "Charge"].foldl (fun acc col => if col ∈ fieldnames then some col else acc) none

/-- Full match of one header name against the one-hot pattern
(charge|Charge)([0-9]+) (percolator.py line 141), returning the charge state
and the whole matched column name. -/
def chargeOnehotMatch (col : String) : Option (Nat × String) :=
  let t := col.toList
  if t.take 6 = "charge".toList ∨ t.take 6 = "Charge".toList then
    let ds := t.drop 6
    if ds ≠ [] ∧ ds.all Char.isDigit then some (digitsToNat ds, col) else none
  else none

/-- Python dict assignment d[k] = v on an association list: an existing key
keeps its position and gets the new value, a new key is appended. -/
def assocUpdate (m : List (Nat × String)) (k : Nat) (v : String) : List (Nat × String) :=
  if m.any (fun p => p.1 == k) then m.map (fun p => if p.1 == k then (k, v) else p)
  else m ++ [(k, v)]

/-- One-hot charge columns of _infer_charge_columns (percolator.py lines
138-144): the charge-state to column-name dict in header order. -/
def chargeOnehotColumns (fieldnames : List String) : List (Nat × String) :=
  fieldnames.foldl (fun m col =>
    match chargeOnehotMatch col with
    | some (n, whole) => assocUpdate m n whole
    | none => m) []

/-- PercolatorTabReader._infer_charge_columns (percolator.py lines 129-146). -/
def inferChargeColumns (fieldnames : List String) : Option String × List (Nat × String) :=
  (chargeColumnOf fieldnames, chargeOnehotColumns fieldnames)

/-- PercolatorTabReader._parse_charge (percolator.py lines 158-167): with an
explicit charge column, int(entry["charge"]) is used (one-hot columns are not
consulted); otherwise the first one-hot column holding "1" gives the charge;
with neither, the charge is None. Python errors (missing key, ValueError)
are modelled as `none`. -/
def parseChargePerc (chargeColumn : Option String) (onehot : List (Nat × String))
    (entry : String → Option String) : Option Int :=
  match chargeColumn with
  | some _ => (entry "charge").bind pyIntParse
  | none =>
    match onehot with
    | [] => none
    | _ :: _ => (onehot.find? (fun p => entry p.2 == some "1")).map (fun p => (p.1 : Int))

/-- Character class [A-Z-] of the flanking-residue pattern. -/
def flankClass (c : Char) : Bool :=
  ('A' ≤ c && c ≤ 'Z') || c = '-'

/-- Full-anchored match of ^[A-Z-]\.(.+)\.[A-Z-]$ (percolator.py line 152):
the positions of the flanking residues and dots are forced by the anchors,
the greedy core is everything in between (nonempty, without newline). -/
def matchFlank (p : List Char) : Bool :=
  decide (5 ≤ p.length) && flankClass (p.getD 0 ' ') && (p.getD 1 ' ' == '.')
    && (p.getD (p.length - 2) ' ' == '.') && flankClass (p.getD (p.length - 1) ' ')
    && ((p.drop 2).take (p.length - 4)).all (fun c => c != '\n')

/-- Flanking-residue strip of _parse_peptidoform (percolator.py lines
148-153). -/
def stripFlankPerc (p : List Char) : List Char :=
  if matchFlank p then (p.drop 2).take (p.length - 4) else p

/-- PercolatorTabReader._parse_peptidoform (percolator.py lines 148-156):
strip flanking residues and append the "/charge" suffix only for a truthy
charge (a Python int 0 or None appends nothing). The Peptidoform constructor
applied to the resulting string is external; the string is returned. -/
def parsePeptidoformPerc (pep : List Char) (charge : Option Int) : List Char :=
  let core := stripFlankPerc pep
  match charge with
  | some c => if c ≠ 0 then core ++ '/' :: (toString c).toList else core
  | none => core

/-!
PercolatorTabWriter session entry and whole-list write, percolator.py lines
269-321. A file is modelled as `Option (List String)`: `none` when the
target does not exist, else its list of lines.
-/

/-- Header line written by csv.DictWriter.writeheader. -/
def headerLine (columns : List String) : String :=
  String.intercalate "\t" columns

/-- Python open(): truncating write mode starts from empty content, append
mode keeps the existing lines. -/
def openFileLines (truncate : Bool) (priorFile : Option (List String)) : List String :=
  if truncate then [] else priorFile.getD []

/-- PercolatorTabWriter.__enter__ (percolator.py lines 269-295): an existing
target is opened in append mode and the session fieldnames are the
first-line header of the file (the configured columns are ignored and no
header is written); an empty existing file is a ValueError; a fresh target
is opened in write mode, uses the configured columns and gets the configured
header written. Returns the session fieldnames and the file content after
entering. -/
def percolatorEnter (columns : List String) (file : Option (List String)) :
    Except String (List String × List String) :=
  match file with
  | some [] => Except.error "not a valid Percolator Tab file"
  | some (line :: rest) =>
    Except.ok ((stripWS line.toList).asString.splitOn "\t",
      openFileLines false (some (line :: rest)))
  | none => Except.ok (columns, openFileLines true none ++ [headerLine columns])

/-- Row serialisation of csv.DictWriter for one entry: the values of the
session fieldnames in order, missing and None values as empty fields. -/
def writeRowStr (fieldnames : List String) (entry : String → Option String) : String :=
  String.intercalate "\t" (fieldnames.map (fun f => (entry f).getD ""))

/-- Application of _PercolatorTabIO.write to one line: the protein separator
is replaced by tabs. -/
def percolatorWriteLine (s : String) : String :=
  (pipeToTab s.toList).asString

/-- PercolatorTabWriter.write_file (percolator.py lines 313-321): the target
is opened in truncating write mode ("wt"), the configured header is written,
then one row per entry, all through _PercolatorTabIO. -/
def percolatorWriteFile (columns : List String) (priorFile : Option (List String))
    (entries : List (String → Option String)) : List String :=
  openFileLines true priorFile
    ++ percolatorWriteLine (headerLine columns)
      :: entries.map (fun e => percolatorWriteLine (writeRowStr columns e))

/-!
Concrete inputs used to evaluate the definitions.
-/

/-- Hit of the rescoring-feature filter example: keys MS:1002049 (value
"12.3"), random_key (value "5"), COMET:lnExpect (value "notanumber"). -/
def c3Hit : IdXMLHit :=
  { sequence := "PEPTIDE"
    charge := 2
    keys := ["MS:1002049", "random_key", "COMET:lnExpect"]
    meta := fun k =>
      if k = "MS:1002049" then some "12.3"
      else if k = "random_key" then some "5"
      else if k = "COMET:lnExpect" then some "notanumber"
      else none }

/-- Concrete native hit for the merge-path evaluation. -/
def c4Hit : OmsPeptideHit :=
  { sequence := "PEP", charge := 2, score := 0, rank := 3, meta := fun _ => none }

/-- Concrete updated PSM for the merge-path evaluation. -/
def c4Psm : WPsm :=
  { provNative := "PEP", score := 5, rank := 1, rescoringFeatures := [("newfeat", 7)] }

/-- Concrete peptide identification record for the merge-path evaluation. -/
def c4Pid : OmsPeptideId :=
  { spectrumRef := "spec1", mergeIndex := none, mz := 1, rt := 2, hits := [c4Hit] }

/-- Concrete protein identification record for the merge-path evaluation. -/
def c4Prot : OmsProteinId :=
  { spectraData := ["run1.mzML"], hits := ["P1"] }

/-- Concrete PSM bucket function for the merge-path evaluation. -/
def c4Dict : String → String → List WPsm := fun _ _ => [c4Psm]

/-- Expected output of the merge-path evaluation. -/
def c4Out : List OmsProteinId × List OmsPeptideId :=
  ([c4Prot],
   [{ spectrumRef := "spec1", mergeIndex := none, mz := 1, rt := 2,
      hits := [updatePeptideHit c4Hit c4Psm] }])

/-- Concrete row entry mapping for the charge-resolution evaluation: one-hot
column charge3 holds the marker. -/
def c6Entry : String → Option String := fun k =>
  if k = "charge2" then some "0"
  else if k = "charge3" then some "1"
  else if k = "peptide" then some "K.ACDEK.F"
  else none

/-- Concrete row entry mapping with an explicit charge column. -/
def c6Entry2 : String → Option String := fun k =>
  if k = "charge" then some "4" else if k = "charge2" then some "1" else none

/-!
Helper lemmas about the string model.
-/

theorem isPrefixOf_cons (p0 c : Char) (pr r : List Char) :
    (p0 :: pr).isPrefixOf (c :: r) = ((p0 == c) && pr.isPrefixOf r) := rfl

theorem isPrefixOf_self_append (l ys : List Char) : l.isPrefixOf (l ++ ys) = true := by
  induction l with
  | nil => simp [List.isPrefixOf]
  | cons a t ih => simp [List.isPrefixOf, ih]

theorem takeAppend (l₁ l₂ : List α) : (l₁ ++ l₂).take l₁.length = l₁ := by
  induction l₁ with
  | nil => rfl
  | cons a t ih => simp [ih]

theorem dropAppend (l₁ l₂ : List α) : (l₁ ++ l₂).drop l₁.length = l₂ := by
  induction l₁ with
  | nil => rfl
  | cons a t ih => simp [ih]

theorem replaceGo_fuel (p0 : Char) (pr rep : List Char) :
    ∀ (f1 : Nat) (f2 : Nat) (s : List Char), s.length ≤ f1 → s.length ≤ f2 →
      replaceGo p0 pr rep f1 s = replaceGo p0 pr rep f2 s := by
  intro f1
  induction f1 with
  | zero =>
    intro f2 s h1 _
    have : s = [] := List.length_eq_zero.mp (Nat.le_zero.mp h1)
    subst this
    cases f2 <;> rfl
  | succ f ih =>
    intro f2 s h1 h2
    match s with
    | [] => cases f2 <;> rfl
    | c :: r =>
      match f2 with
      | f2' + 1 =>
        simp only [List.length_cons, Nat.succ_le_succ_iff] at h1 h2
        simp only [replaceGo]
        by_cases hp : (p0 :: pr).isPrefixOf (c :: r) = true
        · rw [if_pos hp, if_pos hp,
            ih f2' (r.drop pr.length) (le_trans (by simp only [List.length_drop]; omega) h1)
              (le_trans (by simp only [List.length_drop]; omega) h2)]
        · rw [if_neg hp, if_neg hp, ih f2' r h1 h2]

theorem replaceGo_pass (p0 : Char) (pr rep : List Char) :
    ∀ (xs ys : List Char) (fuel : Nat), p0 ∉ xs → (xs ++ ys).length ≤ fuel →
      replaceGo p0 pr rep fuel (xs ++ ys) = xs ++ replaceGo p0 pr rep ys.length ys := by
  intro xs
  induction xs with
  | nil =>
    intro ys fuel _ hf
    exact replaceGo_fuel p0 pr rep fuel ys.length ys (by simpa using hf) le_rfl
  | cons a t ih =>
    intro ys fuel h hf
    have ha : p0 ≠ a := fun e => h (e ▸ List.mem_cons_self a t)
    have ht : p0 ∉ t := fun e => h (List.mem_cons_of_mem a e)
    match fuel with
    | f + 1 =>
      have hred : replaceGo p0 pr rep (f + 1) ((a :: t) ++ ys)
          = a :: replaceGo p0 pr rep f (t ++ ys) := by
        simp only [List.cons_append, replaceGo, isPrefixOf_cons,
          beq_eq_false_iff_ne.mpr ha, Bool.false_and, Bool.false_eq_true, if_false,
          List.append_eq]
      simp only [List.cons_append, List.length_cons, Nat.succ_le_succ_iff] at hf
      have step := ih ys f ht hf
      rw [hred, step]
      rfl

theorem replaceGo_consume (p0 : Char) (pr rep : List Char) (ys : List Char) (fuel : Nat)
    (hf : ((p0 :: pr) ++ ys).length ≤ fuel) :
    replaceGo p0 pr rep fuel ((p0 :: pr) ++ ys) = rep ++ replaceGo p0 pr rep ys.length ys := by
  match fuel with
  | f + 1 =>
    simp only [List.cons_append, List.length_cons, List.length_append,
      Nat.succ_le_succ_iff] at hf
    have step := replaceGo_fuel p0 pr rep f ys.length ys (by omega) le_rfl
    simp only [List.cons_append, replaceGo, List.append_eq, isPrefixOf_cons, beq_self_eq_true,
      Bool.true_and, isPrefixOf_self_append, if_true, dropAppend, step]

theorem replaceAllL_nil (p0 : Char) (pr rep : List Char) :
    replaceAllL p0 pr rep [] = [] := rfl

theorem replaceAllL_pass (p0 : Char) (pr rep xs ys : List Char) (h : p0 ∉ xs) :
    replaceAllL p0 pr rep (xs ++ ys) = xs ++ replaceAllL p0 pr rep ys :=
  replaceGo_pass p0 pr rep xs ys (xs ++ ys).length h le_rfl

theorem replaceAllL_consume (p0 : Char) (pr rep ys : List Char) :
    replaceAllL p0 pr rep (p0 :: pr ++ ys) = rep ++ replaceAllL p0 pr rep ys :=
  replaceGo_consume p0 pr rep ys ((p0 :: pr) ++ ys).length le_rfl

theorem replaceAllL_intercalate (p0 : Char) (pr rep : List Char) (ps : List (List Char))
    (h : ∀ a ∈ ps, p0 ∉ a) :
    replaceAllL p0 pr rep (intercalateL (p0 :: pr) ps) = intercalateL rep ps := by
  induction ps with
  | nil => exact replaceAllL_nil p0 pr rep
  | cons a t ih =>
    match t with
    | [] =>
      have := replaceAllL_pass p0 pr rep a [] (h a (List.mem_cons_self a []))
      simpa [intercalateL, replaceAllL_nil] using this
    | b :: t2 =>
      have hmem : ∀ x ∈ b :: t2, p0 ∉ x := fun x hx => h x (List.mem_cons_of_mem a hx)
      have key : intercalateL (p0 :: pr) (a :: b :: t2)
          = a ++ ((p0 :: pr) ++ intercalateL (p0 :: pr) (b :: t2)) := by
        simp [intercalateL]
      rw [key, replaceAllL_pass p0 pr rep a _ (h a (List.mem_cons_self a _)),
        replaceAllL_consume, ih hmem]
      simp [intercalateL]

theorem splitGo_fuel (p0 : Char) (pr : List Char) :
    ∀ (f1 : Nat) (f2 : Nat) (s acc : List Char), s.length ≤ f1 → s.length ≤ f2 →
      splitGo p0 pr f1 s acc = splitGo p0 pr f2 s acc := by
  intro f1
  induction f1 with
  | zero =>
    intro f2 s acc h1 _
    have : s = [] := List.length_eq_zero.mp (Nat.le_zero.mp h1)
    subst this
    cases f2 <;> rfl
  | succ f ih =>
    intro f2 s acc h1 h2
    match s with
    | [] => cases f2 <;> rfl
    | c :: r =>
      match f2 with
      | f2' + 1 =>
        simp only [List.length_cons, Nat.succ_le_succ_iff] at h1 h2
        simp only [splitGo]
        by_cases hp : (p0 :: pr).isPrefixOf (c :: r) = true
        · rw [if_pos hp, if_pos hp,
            ih f2' (r.drop pr.length) [] (le_trans (by simp only [List.length_drop]; omega) h1)
              (le_trans (by simp only [List.length_drop]; omega) h2)]
        · rw [if_neg hp, if_neg hp, ih f2' r (c :: acc) h1 h2]

theorem splitGo_pass (p0 : Char) (pr : List Char) :
    ∀ (xs ys acc : List Char) (fuel : Nat), p0 ∉ xs → (xs ++ ys).length ≤ fuel →
      splitGo p0 pr fuel (xs ++ ys) acc = splitGo p0 pr ys.length ys (xs.reverse ++ acc) := by
  intro xs
  induction xs with
  | nil =>
    intro ys acc fuel _ hf
    simpa using splitGo_fuel p0 pr fuel ys.length ys acc (by simpa using hf) le_rfl
  | cons a t ih =>
    intro ys acc fuel h hf
    have ha : p0 ≠ a := fun e => h (e ▸ List.mem_cons_self a t)
    have ht : p0 ∉ t := fun e => h (List.mem_cons_of_mem a e)
    match fuel with
    | f + 1 =>
      have hred : splitGo p0 pr (f + 1) ((a :: t) ++ ys) acc
          = splitGo p0 pr f (t ++ ys) (a :: acc) := by
        simp only [List.cons_append, splitGo, isPrefixOf_cons,
          beq_eq_false_iff_ne.mpr ha, Bool.false_and, Bool.false_eq_true, if_false,
          List.append_eq]
      simp only [List.cons_append, List.length_cons, Nat.succ_le_succ_iff] at hf
      have step := ih ys (a :: acc) f ht hf
      rw [hred, step]
      simp

theorem splitGo_consume (p0 : Char) (pr ys acc : List Char) (fuel : Nat)
    (hf : ((p0 :: pr) ++ ys).length ≤ fuel) :
    splitGo p0 pr fuel ((p0 :: pr) ++ ys) acc = acc.reverse :: splitGo p0 pr ys.length ys [] := by
  match fuel with
  | f + 1 =>
    simp only [List.cons_append, List.length_cons, List.length_append,
      Nat.succ_le_succ_iff] at hf
    have step := splitGo_fuel p0 pr f ys.length ys [] (by omega) le_rfl
    simp only [List.cons_append, splitGo, List.append_eq, isPrefixOf_cons, beq_self_eq_true,
      Bool.true_and, isPrefixOf_self_append, if_true, dropAppend, step]

theorem splitOnL_intercalateL (p0 : Char) (pr : List Char) (ps : List (List Char))
    (hne : ps ≠ []) (h : ∀ a ∈ ps, p0 ∉ a) :
    splitOnL (p0 :: pr) (intercalateL (p0 :: pr) ps) = ps := by
  induction ps with
  | nil => exact absurd rfl hne
  | cons a t ih =>
    match t with
    | [] =>
      show splitGo p0 pr (intercalateL (p0 :: pr) [a]).length (intercalateL (p0 :: pr) [a]) []
        = [a]
      have key : intercalateL (p0 :: pr) [a] = a ++ [] := by simp [intercalateL]
      rw [key]
      have step := splitGo_pass p0 pr a [] [] (a ++ []).length (h a (List.mem_cons_self a _))
        le_rfl
      rw [step]
      simp [splitGo]
    | b :: t2 =>
      have hmem : ∀ x ∈ b :: t2, p0 ∉ x := fun x hx => h x (List.mem_cons_of_mem a hx)
      show splitGo p0 pr (intercalateL (p0 :: pr) (a :: b :: t2)).length
        (intercalateL (p0 :: pr) (a :: b :: t2)) [] = a :: b :: t2
      have key : intercalateL (p0 :: pr) (a :: b :: t2)
          = a ++ ((p0 :: pr) ++ intercalateL (p0 :: pr) (b :: t2)) := by
        simp [intercalateL]
      rw [key]
      have step1 := splitGo_pass p0 pr a ((p0 :: pr) ++ intercalateL (p0 :: pr) (b :: t2)) []
        (a ++ ((p0 :: pr) ++ intercalateL (p0 :: pr) (b :: t2))).length
        (h a (List.mem_cons_self a _)) le_rfl
      rw [step1]
      have step2 := splitGo_consume p0 pr (intercalateL (p0 :: pr) (b :: t2)) (a.reverse ++ [])
        ((p0 :: pr) ++ intercalateL (p0 :: pr) (b :: t2)).length le_rfl
      rw [step2]
      simp only [List.append_nil, List.reverse_reverse]
      exact congrArg (a :: ·) (ih (by simp) hmem)

theorem intercalateL_append (sep : List Char) (xs ys : List (List Char))
    (hx : xs ≠ []) (hy : ys ≠ []) :
    intercalateL sep (xs ++ ys) = intercalateL sep xs ++ sep ++ intercalateL sep ys := by
  induction xs with
  | nil => exact absurd rfl hx
  | cons a t ih =>
    match t with
    | [] =>
      match ys with
      | b :: t2 => simp [intercalateL]
    | b :: t2 =>
      have step : intercalateL sep (a :: b :: t2) = a ++ sep ++ intercalateL sep (b :: t2) := by
        simp [intercalateL]
      have step2 : ((a :: b :: t2) ++ ys) = a :: ((b :: t2) ++ ys) := rfl
      have step3 : intercalateL sep (a :: ((b :: t2) ++ ys))
          = a ++ sep ++ intercalateL sep ((b :: t2) ++ ys) := by
        match ys with
        | c :: t3 => simp [intercalateL]
      rw [step2, step3, ih (by simp), step]
      simp

theorem intercalateL_ne_nil (sep : List Char) (ps : List (List Char))
    (hne : ps ≠ []) (h : ∀ a ∈ ps, a ≠ []) : intercalateL sep ps ≠ [] := by
  match ps with
  | [a] =>
    simpa [intercalateL] using h a (List.mem_cons_self a _)
  | a :: b :: t =>
    have := h a (List.mem_cons_self a _)
    simp only [intercalateL]
    intro hcontra
    rcases List.append_eq_nil.mp hcontra with ⟨h1, -⟩
    rcases List.append_eq_nil.mp h1 with ⟨h2, -⟩
    exact this h2

theorem not_mem_intercalateL (c : Char) (sep : List Char) (ps : List (List Char))
    (hsep : c ∉ sep) (h : ∀ a ∈ ps, c ∉ a) : c ∉ intercalateL sep ps := by
  induction ps with
  | nil => simp [intercalateL]
  | cons a t ih =>
    match t with
    | [] => simpa [intercalateL] using h a (List.mem_cons_self a _)
    | b :: t2 =>
      simp only [intercalateL, List.append_assoc, List.mem_append]
      push_neg
      exact ⟨h a (List.mem_cons_self a _), hsep,
        ih (fun x hx => h x (List.mem_cons_of_mem a hx))⟩

theorem dropWhile_eq_self_of_head (p : Char → Bool) (l : List Char)
    (h : ∀ c, l.head? = some c → p c = false) : l.dropWhile p = l := by
  match l with
  | [] => rfl
  | a :: t =>
    have := h a rfl
    simp [List.dropWhile_cons, this]

theorem stripWS_eq_self (s : List Char) (hh : ∀ c, s.head? = some c → wsChar c = false)
    (hl : ∀ c, s.getLast? = some c → wsChar c = false) : stripWS s = s := by
  unfold stripWS
  rw [dropWhile_eq_self_of_head wsChar s hh]
  rw [dropWhile_eq_self_of_head wsChar s.reverse (by
    intro c hc
    exact hl c (by rwa [List.head?_reverse] at hc))]
  exact List.reverse_reverse s

theorem intercalateL_head? (sep : List Char) (f : List Char) (rest : List (List Char))
    (hf : f ≠ []) : (intercalateL sep (f :: rest)).head? = f.head? := by
  match f with
  | c :: f2 =>
    match rest with
    | [] => rfl
    | b :: t => simp [intercalateL]

theorem intercalateL_getLast? (sep : List Char) (ps : List (List Char)) (f : List Char)
    (hlast : ps.getLast? = some f) (h : ∀ a ∈ ps, a ≠ []) :
    (intercalateL sep ps).getLast? = f.getLast? := by
  induction ps with
  | nil => simp at hlast
  | cons a t ih =>
    match t with
    | [] =>
      simp only [List.getLast?_singleton] at hlast
      cases hlast
      rfl
    | b :: t2 =>
      have hrec : (b :: t2).getLast? = some f := by
        rw [List.getLast?_cons_cons] at hlast
        exact hlast
      have hmem : ∀ x ∈ b :: t2, x ≠ [] := fun x hx => h x (List.mem_cons_of_mem a hx)
      have hne2 : intercalateL sep (b :: t2) ≠ [] :=
        intercalateL_ne_nil sep (b :: t2) (by simp) hmem
      have step : intercalateL sep (a :: b :: t2) = (a ++ sep) ++ intercalateL sep (b :: t2) := by
        simp [intercalateL]
      rw [step, List.getLast?_append_of_ne_nil _ hne2, ih hrec hmem]

theorem head?_mem {l : List α} {a : α} (h : l.head? = some a) : a ∈ l := by
  cases l with
  | nil => simp at h
  | cons b t =>
    simp only [List.head?_cons, Option.some.injEq] at h
    exact h ▸ List.mem_cons_self b t

theorem getLast?_mem {l : List α} {a : α} (h : l.getLast? = some a) : a ∈ l := by
  induction l with
  | nil => simp at h
  | cons b t ih =>
    match t with
    | [] =>
      simp only [List.getLast?_singleton, Option.some.injEq] at h
      exact h ▸ List.mem_cons_self b []
    | c :: t2 =>
      rw [List.getLast?_cons_cons] at h
      exact List.mem_cons_of_mem b (ih h)

theorem exists_getLast? {l : List α} (h : l ≠ []) : ∃ a, l.getLast? = some a := by
  induction l with
  | nil => exact absurd rfl h
  | cons b t ih =>
    match t with
    | [] => exact ⟨b, rfl⟩
    | c :: t2 =>
      obtain ⟨a, ha⟩ := ih (by simp)
      exact ⟨a, by rw [List.getLast?_cons_cons]; exact ha⟩

theorem getD_append_singleton (l : List α) (a d : α) : (l ++ [a]).getD l.length d = a := by
  induction l with
  | nil => rfl
  | cons b t ih => simp only [List.cons_append, List.length_cons, List.getD_cons_succ]; exact ih

/-!
Lemmas assembling the Percolator protein-list round trip.
-/

theorem packLine_eq (row ps : List (List Char)) (hrow_ne : row ≠ []) (hps_ne : ps ≠ [])
    (hrow_pipe : ∀ f ∈ row, '|' ∉ f) (hps_pipe : ∀ a ∈ ps, '|' ∉ a) :
    packLine row ps = intercalateL tabChar (row ++ ps) := by
  have hps_cons : proteinsField ps = intercalateL ('|' :: pipeSepTail) ps := by
    cases ps with
    | nil => exact absurd rfl hps_ne
    | cons a t => rfl
  have hsingle : intercalateL tabChar [proteinsField ps] = proteinsField ps := rfl
  have h1 : intercalateL tabChar (row ++ [proteinsField ps])
      = (intercalateL tabChar row ++ tabChar) ++ intercalateL ('|' :: pipeSepTail) ps := by
    rw [intercalateL_append tabChar row [proteinsField ps] hrow_ne (by simp), hsingle, hps_cons]
  have hxs : '|' ∉ intercalateL tabChar row ++ tabChar := by
    simp only [List.mem_append]
    push_neg
    refine ⟨not_mem_intercalateL '|' tabChar row (by decide) hrow_pipe, by decide⟩
  unfold packLine pipeToTab
  rw [h1, replaceAllL_pass '|' pipeSepTail tabChar _ _ hxs,
    replaceAllL_intercalate '|' pipeSepTail tabChar ps hps_pipe,
    intercalateL_append tabChar row ps hrow_ne hps_ne]

theorem stripWS_intercalate_tab (parts : List (List Char)) (hne : parts ≠ [])
    (hparts : ∀ f ∈ parts, f ≠ [] ∧ ∀ c ∈ f, wsChar c = false) :
    stripWS (intercalateL tabChar parts) = intercalateL tabChar parts := by
  apply stripWS_eq_self
  · intro c hc
    obtain ⟨f0, pt, hr⟩ : ∃ f0 pt, parts = f0 :: pt := by
      cases parts with
      | nil => exact absurd rfl hne
      | cons a t => exact ⟨a, t, rfl⟩
    subst hr
    rw [intercalateL_head? tabChar f0 pt (hparts f0 (List.mem_cons_self _ _)).1] at hc
    exact (hparts f0 (List.mem_cons_self _ _)).2 c (head?_mem hc)
  · intro c hc
    obtain ⟨g, hg⟩ := exists_getLast? hne
    rw [intercalateL_getLast? tabChar parts g hg (fun a ha => (hparts a ha).1)] at hc
    exact (hparts g (getLast?_mem hg)).2 c (getLast?_mem hc)

/-!
Claim C5.
-/

/-- Claim C5, counterexample: for the empty protein list (0 accessions),
packing the row and unpacking it returns a one-element list holding the
empty accession, not the empty list: the written line carries an empty final
field, and splitting the empty string on the placeholder yields one empty
string in Python. -/
theorem percolator_c5_empty_counterexample :
    readProteins 4 (packLine ([ "id", "1", "7" ].map String.toList) []) = [[]] ∧
    ([[]] : List (List Char)) ≠ [] := by
  constructor
  · rfl
  · simp

/-- Claim C5, amended: for every nonempty ordered protein accession list
(such as the 1- and 3-accession lists of the claim) whose accessions are
nonempty and free of whitespace and of the placeholder character, and every
row of declared width, packing the list into the trailing tab-separated
overflow fields on write and unpacking on read returns the identical ordered
list; the 0-accession list instead unpacks as one empty accession. -/
theorem percolator_c5_roundtrip_amended (n : Nat) (row ps : List (List Char))
    (hrow_ne : row ≠ []) (hlen : row.length = n - 1)
    (hrow : ∀ f ∈ row, f ≠ [] ∧ ∀ c ∈ f, wsChar c = false ∧ c ≠ '|')
    (hps_ne : ps ≠ [])
    (hps : ∀ a ∈ ps, a ≠ [] ∧ ∀ c ∈ a, wsChar c = false ∧ c ≠ '|') :
    readProteins n (packLine row ps) = ps := by
  have hrow_pipe : ∀ f ∈ row, '|' ∉ f := fun f hf hm => ((hrow f hf).2 '|' hm).2 rfl
  have hps_pipe : ∀ a ∈ ps, '|' ∉ a := fun a ha hm => ((hps a ha).2 '|' hm).2 rfl
  have hrow_tab : ∀ f ∈ row, '\t' ∉ f := by
    intro f hf hm
    have := ((hrow f hf).2 '\t' hm).1
    simp [wsChar] at this
  have hps_tab : ∀ a ∈ ps, '\t' ∉ a := by
    intro a ha hm
    have := ((hps a ha).2 '\t' hm).1
    simp [wsChar] at this
  have happ_ne : row ++ ps ≠ [] := fun h => hrow_ne (List.append_eq_nil.mp h).1
  have hall_tab : ∀ f ∈ row ++ ps, '\t' ∉ f := by
    intro f hf
    rcases List.mem_append.mp hf with h | h
    · exact hrow_tab f h
    · exact hps_tab f h
  have hall_ws : ∀ f ∈ row ++ ps, f ≠ [] ∧ ∀ c ∈ f, wsChar c = false := by
    intro f hf
    rcases List.mem_append.mp hf with h | h
    · exact ⟨(hrow f h).1, fun c hc => ((hrow f h).2 c hc).1⟩
    · exact ⟨(hps f h).1, fun c hc => ((hps f h).2 c hc).1⟩
  rw [packLine_eq row ps hrow_ne hps_ne hrow_pipe hps_pipe]
  have hsplit1 : splitOnL tabChar (stripWS (intercalateL tabChar (row ++ ps))) = row ++ ps := by
    rw [stripWS_intercalate_tab (row ++ ps) happ_ne hall_ws]
    exact splitOnL_intercalateL '\t' [] (row ++ ps) happ_ne hall_tab
  have htake : (row ++ ps).take (n - 1) = row := by
    rw [← hlen]
    exact takeAppend row ps
  have hdrop : (row ++ ps).drop (n - 1) = ps := by
    rw [← hlen]
    exact dropAppend row ps
  have hJ_tab : '\t' ∉ intercalateL ('|' :: pipeSepTail) ps :=
    not_mem_intercalateL '\t' ('|' :: pipeSepTail) ps (by decide) hps_tab
  have hsplit2 : splitOnL tabChar
      (intercalateL tabChar (row ++ [intercalateL ('|' :: pipeSepTail) ps]))
      = row ++ [intercalateL ('|' :: pipeSepTail) ps] := by
    apply splitOnL_intercalateL '\t' [] _ (fun h => hrow_ne (List.append_eq_nil.mp h).1)
    intro f hf
    rcases List.mem_append.mp hf with h | h
    · exact hrow_tab f h
    · rcases List.mem_singleton.mp h with rfl
      exact hJ_tab
  have hgetD : (row ++ [intercalateL ('|' :: pipeSepTail) ps]).getD (n - 1) []
      = intercalateL ('|' :: pipeSepTail) ps := by
    rw [← hlen]
    exact getD_append_singleton row _ []
  simp only [readProteins, iterLine]
  rw [hsplit1, htake, hdrop, hsplit2, hgetD]
  exact splitOnL_intercalateL '|' pipeSepTail ps hps_ne hps_pipe

/-- Claim C5, witness: the 3-accession round trip at a concrete row. -/
theorem percolator_c5_roundtrip_amended_witness :
    readProteins 4 (packLine ([ "id", "1", "7" ].map String.toList)
      ([ "pA", "pB", "pC" ].map String.toList)) = [ "pA", "pB", "pC" ].map String.toList :=
  percolator_c5_roundtrip_amended 4 _ _ (by decide) (by decide) (by decide) (by decide) (by decide)

/-!
Lemmas about the modification matchers: without a closing delimiter no group
matches, so the substitutions pass the input through unchanged.
-/

theorem groupBody_none (op cl : Char) :
    ∀ (fuel lvl : Nat) (s : List Char), cl ∉ s → groupBody op cl fuel lvl s = none := by
  intro fuel
  induction fuel with
  | zero => intro lvl s _; rfl
  | succ f ih =>
    intro lvl s h
    match s with
    | [] => rfl
    | c :: r =>
      have hc : c ≠ cl := fun e => h (e ▸ List.mem_cons_self c r)
      have hr : cl ∉ r := fun e => h (List.mem_cons_of_mem c e)
      simp only [groupBody, if_neg (fun e => hc e)]
      by_cases hop : c = op
      · rw [if_pos hop]
        cases lvl with
        | zero => rfl
        | succ lvl' => simp only [ih lvl' r hr]
      · rw [if_neg hop]
        simp only [ih lvl r hr]

theorem matchGroup_none (op cl : Char) (s : List Char) (h : cl ∉ s) :
    matchGroup op cl s = none := by
  match s with
  | [] => rfl
  | c :: r =>
    have hr : cl ∉ r := fun e => h (List.mem_cons_of_mem c e)
    simp only [matchGroup]
    by_cases hop : c = op
    · rw [if_pos hop, groupBody_none op cl _ 2 r hr]
    · rw [if_neg hop]

theorem modSub_id : ∀ (fuel : Nat) (s : List Char), ')' ∉ s → modSub fuel s = s := by
  intro fuel
  induction fuel with
  | zero => intro s _; rfl
  | succ f ih =>
    intro s h
    match s with
    | [] => rfl
    | c :: r =>
      have hr : (')' : Char) ∉ r := fun e => h (List.mem_cons_of_mem c e)
      simp only [modSub, matchGroup_none '(' ')' (c :: r) h, ih r hr]

theorem modPatternSub_id (s : List Char) (h : ')' ∉ s) : modPatternSub s = s :=
  modSub_id s.length s h

theorem ntermStep_id (s : List Char) (h : ']' ∉ s) : ntermStep s = s := by
  unfold ntermStep
  by_cases hg : s.take 2 = ['.', '[']
  · rw [if_pos hg, groupBody_none '[' ']' _ 2 (s.drop 2)
      (fun e => h (List.drop_subset 2 s e))]
  · rw [if_neg hg]

theorem ctermStep_id (s : List Char) (h : ']' ∉ s) : ctermStep s = s := by
  unfold ctermStep
  rw [if_neg]
  intro hc
  exact h (getLast?_mem hc)

/-!
Claim C2.
-/

/-- Claim C2, counterexample: on the unbalanced input PEPT(OxidationIDE the
translation _parse_peptidoform does not raise any error: it succeeds,
returning the input with the unmatched parenthesis left in place plus the
charge suffix (a silent best-effort result). No MalformedNotation error
exists in the source. -/
theorem idxml_c2_unbalanced_counterexample :
    parsePeptidoformIdXML "PEPT(OxidationIDE".toList 2 = "PEPT(OxidationIDE/2".toList ∧
    '(' ∈ parsePeptidoformIdXML "PEPT(OxidationIDE".toList 2 := by
  constructor
  · rfl
  · decide

/-- Claim C2, amended: the translation never raises on unbalanced input;
when no closing delimiter is present at all, no substitution applies and the
input is returned unchanged apart from dot-stripping and the charge
suffix — a silent best-effort result rather than a parse error. -/
theorem idxml_c2_unbalanced_silent (s : List Char) (c : Int)
    (hparen : ')' ∉ s) (hbracket : ']' ∉ s) :
    parsePeptidoformIdXML s c = stripDots s ++ '/' :: (toString c).toList := by
  simp only [parsePeptidoformIdXML, parsePeptidoformSeq]
  rw [modPatternSub_id s hparen, ntermStep_id s hbracket, ctermStep_id s hbracket]

/-- Claim C2, witness for the amended statement. -/
theorem idxml_c2_unbalanced_silent_witness :
    (')' ∉ "PEPT(OxidationIDE".toList ∧ ']' ∉ "PEPT(OxidationIDE".toList) ∧
    parsePeptidoformIdXML "PEPT(OxidationIDE".toList 2
      = stripDots "PEPT(OxidationIDE".toList ++ '/' :: (toString (2 : Int)).toList :=
  ⟨⟨by decide, by decide⟩,
    idxml_c2_unbalanced_silent "PEPT(OxidationIDE".toList 2 (by decide) (by decide)⟩

/-!
Claim C1.
-/

/-- Claim C1: the inline-modification round trip holds, but the terminal
modification round trip fails: the native N-terminal sequence
.(Acetyl)PEPTIDE translates to the interchange form [Acetyl]-PEPTIDE, and
translating back through _convert_proforma_to_unimod yields
(Acetyl)-PEPTIDE — not the original native sequence — because the
N-terminal and C-terminal guards of that function test for double
parentheses that a single terminal modification never produces. -/
theorem idxml_c1_terminal_roundtrip_bug :
    convertProformaToUnimod (parsePeptidoformSeq "AC(Ox)DE".toList) = "AC(Ox)DE".toList ∧
    parsePeptidoformSeq ".(Acetyl)PEPTIDE".toList = "[Acetyl]-PEPTIDE".toList ∧
    convertProformaToUnimod (parsePeptidoformSeq ".(Acetyl)PEPTIDE".toList)
      = "(Acetyl)-PEPTIDE".toList ∧
    convertProformaToUnimod (parsePeptidoformSeq ".(Acetyl)PEPTIDE".toList)
      ≠ ".(Acetyl)PEPTIDE".toList ∧
    convertProformaToUnimod (parsePeptidoformSeq "PEPTIDE.(Amidated)".toList)
      ≠ "PEPTIDE.(Amidated)".toList := by
  refine ⟨rfl, rfl, rfl, by decide, by decide⟩

/-!
Claim C3.
-/

/-- Claim C3, evaluation at the failing input: because the source list
RESCORING_FEATURE_LIST lacks a comma after "isotope_error", the element
"MS:1002049" is not in the evaluated allow-list (only the concatenation
"isotope_errorMS:1002049" is). For the hit of the claim, the key set derived
from the first hit of the first identification record is therefore
["COMET:lnExpect"] alone, and since its value "notanumber" does not parse as
a float, the resulting rescoring-features mapping is empty — not the claimed
mapping holding MS:1002049 with value 12.3, although that value itself would
parse as a float. -/
theorem idxml_c3_allowlist_bug :
    initRescoringFeatures [⟨[c3Hit]⟩] = some ["COMET:lnExpect"] ∧
    computeRescoringFeatures ["COMET:lnExpect"] c3Hit = [] ∧
    computeRescoringFeatures ["COMET:lnExpect"] c3Hit ≠ [("MS:1002049", "12.3")] ∧
    "MS:1002049" ∉ RESCORING_FEATURE_LIST ∧
    "isotope_errorMS:1002049" ∈ RESCORING_FEATURE_LIST ∧
    "COMET:lnExpect" ∈ RESCORING_FEATURE_LIST ∧
    isFloatStr "12.3" = true ∧
    isFloatStr "notanumber" = false := by
  refine ⟨rfl, rfl, by decide, by decide, by decide, by decide, by decide, by decide⟩

/-!
Claim C7.
-/

/-- Claim C7: the decoy flag is tri-state, exactly as the claim states: a
missing target_decoy meta value gives the unknown flag (None), the value
"decoy" gives true, and any other present value gives false. -/
theorem idxml_c7_decoy_tristate (hit : IdXMLHit) :
    (hit.meta "target_decoy" = none → isDecoyHit hit = none) ∧
    (hit.meta "target_decoy" = some "decoy" → isDecoyHit hit = some true) ∧
    (∀ v, hit.meta "target_decoy" = some v → v ≠ "decoy" → isDecoyHit hit = some false) := by
  refine ⟨?_, ?_, ?_⟩
  · intro h
    unfold isDecoyHit
    rw [h]
  · intro h
    unfold isDecoyHit
    rw [h]
    simp
  · intro v h hv
    unfold isDecoyHit
    rw [h]
    simp [hv]

/-- Claim C7, witness: the three cases at concrete hits. -/
theorem idxml_c7_decoy_tristate_witness :
    isDecoyHit ⟨"P", 2, [], fun _ => none⟩ = none ∧
    isDecoyHit ⟨"P", 2, [], fun k => if k = "target_decoy" then some "decoy" else none⟩
      = some true ∧
    isDecoyHit ⟨"P", 2, [], fun k => if k = "target_decoy" then some "target" else none⟩
      = some false :=
  ⟨(idxml_c7_decoy_tristate ⟨"P", 2, [], fun _ => none⟩).1 rfl,
   (idxml_c7_decoy_tristate
      ⟨"P", 2, [], fun k => if k = "target_decoy" then some "decoy" else none⟩).2.1 rfl,
   (idxml_c7_decoy_tristate
      ⟨"P", 2, [], fun k => if k = "target_decoy" then some "target" else none⟩).2.2
     "target" rfl (by decide)⟩

/-!
Claim C8.
-/

/-- Claim C8, counterexample: a hit referencing the accessions PB then PA
yields the protein list [PA, PB] — the set iteration order of the external
extraction, not the order of reference. -/
theorem idxml_c8_order_counterexample :
    proteinListOfHit ["PB", "PA"] = ["PA", "PB"] ∧
    (["PA", "PB"] : List String) ≠ ["PB", "PA"] := by
  constructor
  · decide
  · decide

theorem lexLe_total : ∀ (a b : List Char), lexLe a b = true ∨ lexLe b a = true := by
  intro a
  induction a with
  | nil => intro b; left; rfl
  | cons x as ih =>
    intro b
    match b with
    | [] => right; rfl
    | y :: bs =>
      rcases lt_trichotomy x y with hlt | heq | hgt
      · left
        simp [lexLe, hlt]
      · subst heq
        rcases ih bs with h | h
        · left
          simp [lexLe, lt_irrefl, h]
        · right
          simp [lexLe, lt_irrefl, h]
      · right
        simp [lexLe, hgt]

theorem lexLe_trans : ∀ (a b c : List Char),
    lexLe a b = true → lexLe b c = true → lexLe a c = true := by
  intro a
  induction a with
  | nil => intro b c _ _; rfl
  | cons x as ih =>
    intro b c hab hbc
    match b, c with
    | [], _ => simp [lexLe] at hab
    | _ :: _, [] => simp [lexLe] at hbc
    | y :: bs, z :: cs =>
      simp only [lexLe] at hab hbc ⊢
      by_cases hxy : x < y
      · by_cases hyz : y < z
        · simp [lt_trans hxy hyz]
        · by_cases hyz2 : y = z
          · subst hyz2
            simp [hxy]
          · simp [hyz, hyz2] at hbc
      · by_cases hxy2 : x = y
        · subst hxy2
          by_cases hyz : x < z
          · simp [hyz]
          · by_cases hyz2 : x = z
            · subst hyz2
              simp only [if_neg hxy, if_pos rfl] at hab hbc ⊢
              exact ih bs cs hab hbc
            · simp [hyz, hyz2] at hbc
        · simp [hxy, hxy2] at hab

/-- Claim C8, amended: the protein list of the PSM contains exactly the
accessions referenced by the hit, with duplicates removed; its order is the
iteration order of the external accession set (sorted in this model), not
necessarily the order of reference. -/
theorem idxml_c8_protein_set_amended (evidences : List String) :
    (∀ a, a ∈ proteinListOfHit evidences ↔ a ∈ evidences) ∧
    (proteinListOfHit evidences).Nodup ∧
    List.Sorted (fun a b => strLe a b = true) (proteinListOfHit evidences) := by
  have hperm := List.perm_insertionSort (fun a b : String => strLe a b = true) evidences.dedup
  refine ⟨?_, ?_, ?_⟩
  · intro a
    unfold proteinListOfHit extractProteinAccessionsSet
    rw [hperm.mem_iff]
    exact List.mem_dedup
  · exact hperm.nodup_iff.mpr (List.nodup_dedup evidences)
  · haveI : IsTotal String (fun a b => strLe a b = true) :=
      ⟨fun a b => lexLe_total a.toList b.toList⟩
    haveI : IsTrans String (fun a b => strLe a b = true) :=
      ⟨fun a b c => lexLe_trans a.toList b.toList c.toList⟩
    exact List.sorted_insertionSort (fun a b : String => strLe a b = true) evidences.dedup

/-!
Claim C4.
-/

theorem mapOpt_length {f : α → Option β} :
    ∀ {xs : List α} {ys : List β}, mapOpt f xs = some ys → ys.length = xs.length := by
  intro xs
  induction xs with
  | nil =>
    intro ys h
    simp only [mapOpt, Option.some.injEq] at h
    subst h
    rfl
  | cons a t ih =>
    intro ys h
    simp only [mapOpt] at h
    match hfa : f a with
    | none => rw [hfa] at h; exact absurd h (by simp)
    | some b =>
      rw [hfa] at h
      match hrec : mapOpt f t with
      | none => rw [hrec] at h; exact absurd h (by simp)
      | some bs =>
        rw [hrec] at h
        simp only [Option.some.injEq] at h
        subst h
        simp [ih hrec]

theorem mapOpt_get {f : α → Option β} :
    ∀ {xs : List α} {ys : List β}, mapOpt f xs = some ys →
      ∀ (i : Nat) (hi : i < xs.length) (hi2 : i < ys.length),
        f (xs.get ⟨i, hi⟩) = some (ys.get ⟨i, hi2⟩) := by
  intro xs
  induction xs with
  | nil =>
    intro ys h i hi
    exact absurd hi (by simp)
  | cons a t ih =>
    intro ys h i hi hi2
    simp only [mapOpt] at h
    match hfa : f a with
    | none => rw [hfa] at h; exact absurd h (by simp)
    | some b =>
      rw [hfa] at h
      match hrec : mapOpt f t with
      | none => rw [hrec] at h; exact absurd h (by simp)
      | some bs =>
        rw [hrec] at h
        simp only [Option.some.injEq] at h
        subst h
        match i with
        | 0 => exact hfa
        | i + 1 =>
          exact ih hrec i (Nat.lt_of_succ_lt_succ hi) (Nat.lt_of_succ_lt_succ hi2)

/-- Frame property of the meta-value fold of _update_peptide_hit: a key in
the allow-list, or absent from the rescoring features, keeps its previous
meta value. -/
theorem updateMeta_frame (feats : List (String × Rat)) :
    ∀ (m : String → Option Rat) (k : String),
      (k ∈ RESCORING_FEATURE_LIST ∨ ∀ v, (k, v) ∉ feats) →
      (feats.foldl
        (fun m fv => if fv.1 ∈ RESCORING_FEATURE_LIST then m else setMetaValue m fv.1 fv.2)
        m) k = m k := by
  induction feats with
  | nil => intro m k _; rfl
  | cons fv rest ih =>
    intro m k hk
    have hk2 : k ∈ RESCORING_FEATURE_LIST ∨ ∀ v, (k, v) ∉ rest := by
      rcases hk with h | h
      · exact Or.inl h
      · exact Or.inr (fun v hv => h v (List.mem_cons_of_mem fv hv))
    simp only [List.foldl_cons]
    by_cases hf : fv.1 ∈ RESCORING_FEATURE_LIST
    · rw [if_pos hf]
      exact ih m k hk2
    · rw [if_neg hf]
      rw [ih (setMetaValue m fv.1 fv.2) k hk2]
      unfold setMetaValue
      have hkf : k ≠ fv.1 := by
        rcases hk with h | h
        · intro e
          exact hf (e ▸ h)
        · intro e
          exact h fv.2 (by rw [e]; exact List.mem_cons_self fv rest)
      rw [if_neg hkf]

/-- Claim C4: the update-in-place merge changes, on each matched native hit,
only the score, the rank (1-based to 0-based) and the meta values of
rescoring-feature keys outside the fixed allow-list; the protein records,
every non-hit field of every peptide identification record, the number of
records and hits, and the sequence, charge and remaining meta values of
every hit are unchanged. -/
theorem idxml_c4_update_frame (proteinIds : List OmsProteinId)
    (psmDict : String → String → List WPsm) (peptideIds : List OmsPeptideId)
    (out : List OmsProteinId × List OmsPeptideId)
    (hup : updateExistingIds proteinIds psmDict peptideIds = some out) :
    out.1 = proteinIds ∧
    out.2.length = peptideIds.length ∧
    ∀ (i : Nat) (hi : i < peptideIds.length) (hi2 : i < out.2.length),
      (out.2.get ⟨i, hi2⟩).spectrumRef = (peptideIds.get ⟨i, hi⟩).spectrumRef ∧
      (out.2.get ⟨i, hi2⟩).mergeIndex = (peptideIds.get ⟨i, hi⟩).mergeIndex ∧
      (out.2.get ⟨i, hi2⟩).mz = (peptideIds.get ⟨i, hi⟩).mz ∧
      (out.2.get ⟨i, hi2⟩).rt = (peptideIds.get ⟨i, hi⟩).rt ∧
      (out.2.get ⟨i, hi2⟩).hits.length = (peptideIds.get ⟨i, hi⟩).hits.length ∧
      ∀ (j : Nat) (hj : j < (peptideIds.get ⟨i, hi⟩).hits.length)
        (hj2 : j < (out.2.get ⟨i, hi2⟩).hits.length),
        ∃ psm : WPsm,
          (out.2.get ⟨i, hi2⟩).hits.get ⟨j, hj2⟩
            = updatePeptideHit ((peptideIds.get ⟨i, hi⟩).hits.get ⟨j, hj⟩) psm ∧
          ((out.2.get ⟨i, hi2⟩).hits.get ⟨j, hj2⟩).sequence
            = ((peptideIds.get ⟨i, hi⟩).hits.get ⟨j, hj⟩).sequence ∧
          ((out.2.get ⟨i, hi2⟩).hits.get ⟨j, hj2⟩).charge
            = ((peptideIds.get ⟨i, hi⟩).hits.get ⟨j, hj⟩).charge ∧
          ((out.2.get ⟨i, hi2⟩).hits.get ⟨j, hj2⟩).score = psm.score ∧
          ((out.2.get ⟨i, hi2⟩).hits.get ⟨j, hj2⟩).rank = psm.rank - 1 ∧
          ∀ k, (k ∈ RESCORING_FEATURE_LIST ∨ ∀ v, (k, v) ∉ psm.rescoringFeatures) →
            ((out.2.get ⟨i, hi2⟩).hits.get ⟨j, hj2⟩).meta k
              = ((peptideIds.get ⟨i, hi⟩).hits.get ⟨j, hj⟩).meta k := by
  cases proteinIds with
  | nil => simp [updateExistingIds] at hup
  | cons p0 prest =>
    simp only [updateExistingIds] at hup
    cases hmap : mapOpt (updateRecord (p0.spectraData.map stem) psmDict) peptideIds with
    | none =>
      rw [hmap] at hup
      exact Option.noConfusion
        (show (none : Option (List OmsProteinId × List OmsPeptideId)) = some out from hup)
    | some pids2 =>
      rw [hmap] at hup
      have hout : (p0 :: prest, pids2) = out :=
        Option.some.inj (show some (p0 :: prest, pids2) = some out from hup)
      subst hout
      refine ⟨rfl, mapOpt_length hmap, ?_⟩
      intro i hi hi2
      have hrec := mapOpt_get hmap i hi hi2
      unfold updateRecord at hrec
      cases hrun : resolveRunW (p0.spectraData.map stem) (peptideIds.get ⟨i, hi⟩) with
      | none =>
        rw [hrun] at hrec
        exact Option.noConfusion (show (none : Option OmsPeptideId) = some _ from hrec)
      | some run =>
        rw [hrun] at hrec
        have hrec2 : (match mapOpt
            (fun h => (hitLookup (psmDict run (peptideIds.get ⟨i, hi⟩).spectrumRef)
              h.sequence).map (updatePeptideHit h)) (peptideIds.get ⟨i, hi⟩).hits with
          | none => none
          | some hits2 => some { peptideIds.get ⟨i, hi⟩ with hits := hits2 })
            = some (pids2.get ⟨i, hi2⟩) := hrec
        cases hhits : mapOpt
            (fun h => (hitLookup (psmDict run (peptideIds.get ⟨i, hi⟩).spectrumRef)
              h.sequence).map (updatePeptideHit h)) (peptideIds.get ⟨i, hi⟩).hits with
        | none =>
          rw [hhits] at hrec2
          exact Option.noConfusion (show (none : Option OmsPeptideId) = some _ from hrec2)
        | some hits2 =>
          rw [hhits] at hrec2
          have hfields : { peptideIds.get ⟨i, hi⟩ with hits := hits2 }
              = pids2.get ⟨i, hi2⟩ :=
            Option.some.inj
              (show some { peptideIds.get ⟨i, hi⟩ with hits := hits2 }
                = some (pids2.get ⟨i, hi2⟩) from hrec2)
          rw [← hfields]
          refine ⟨rfl, rfl, rfl, rfl, mapOpt_length hhits, ?_⟩
          intro j hj hj2
          have hone := mapOpt_get hhits j hj hj2
          simp only [] at hone
          cases hlk : hitLookup (psmDict run (peptideIds.get ⟨i, hi⟩).spectrumRef)
              ((peptideIds.get ⟨i, hi⟩).hits.get ⟨j, hj⟩).sequence with
          | none =>
            rw [hlk] at hone
            simp at hone
          | some psm =>
            rw [hlk] at hone
            have hupd : updatePeptideHit ((peptideIds.get ⟨i, hi⟩).hits.get ⟨j, hj⟩) psm
                = hits2.get ⟨j, hj2⟩ :=
              Option.some.inj
                (show some (updatePeptideHit ((peptideIds.get ⟨i, hi⟩).hits.get ⟨j, hj⟩) psm)
                  = some (hits2.get ⟨j, hj2⟩) from hone)
            rw [← hupd]
            refine ⟨psm, rfl, rfl, rfl, rfl, rfl, ?_⟩
            intro k hk
            exact updateMeta_frame psm.rescoringFeatures
              (((peptideIds.get ⟨i, hi⟩).hits.get ⟨j, hj⟩).meta) k hk

/-- Claim C4, witness: the merge evaluated on a one-record, one-hit document
with a fresh rescoring feature. -/
theorem idxml_c4_update_frame_witness :
    (updateExistingIds [c4Prot] c4Dict [c4Pid] = some c4Out) ∧
    c4Out.1 = [c4Prot] ∧ c4Out.2.length = 1 :=
  ⟨rfl, (idxml_c4_update_frame [c4Prot] c4Dict [c4Pid] c4Out rfl).1,
    (idxml_c4_update_frame [c4Prot] c4Dict [c4Pid] c4Out rfl).2.1⟩

/-!
Claim C6.
-/

theorem find?_eq_of_unique {p : α → Bool} :
    ∀ (l : List α) (x : α), x ∈ l → p x = true → (∀ y ∈ l, p y = true → y = x) →
      l.find? p = some x := by
  intro l
  induction l with
  | nil => intro x hx; exact absurd hx (by simp)
  | cons a t ih =>
    intro x hx hpx huniq
    by_cases hpa : p a = true
    · have hax : a = x := huniq a (List.mem_cons_self a t) hpa
      rw [List.find?_cons_of_pos _ hpa, hax]
    · rw [List.find?_cons_of_neg _ (by simpa using hpa)]
      have hxt : x ∈ t := by
        rcases List.mem_cons.mp hx with h | h
        · exact absurd (h ▸ hpx) (by simpa using hpa)
        · exact h
      exact ih x hxt hpx (fun y hy hpy => huniq y (List.mem_cons_of_mem a hy) hpy)

/-- Core chars of the stripped Percolator peptide are chars of the input. -/
theorem stripFlankPerc_subset (pep : List Char) : ∀ c ∈ stripFlankPerc pep, c ∈ pep := by
  intro c hc
  unfold stripFlankPerc at hc
  by_cases hm : matchFlank pep = true
  · rw [if_pos hm] at hc
    exact List.drop_subset 2 pep (List.take_subset _ _ hc)
  · rw [if_neg hm] at hc
    exact hc

/-- Claim C6: charge resolution of the Percolator reader. With no explicit
charge column and one-hot columns of which exactly one holds the marker "1",
the resolved charge is that column's charge number. With an explicit charge
column in the header, its value is used and the one-hot columns are not
consulted. With neither, the charge is None and the parsed peptide string
carries no charge suffix. -/
theorem percolator_c6_charge_resolution :
    (∀ (fieldnames : List String) (entry : String → Option String) (n : Nat) (col : String),
      (inferChargeColumns fieldnames).1 = none →
      (n, col) ∈ (inferChargeColumns fieldnames).2 →
      entry col = some "1" →
      (∀ p ∈ (inferChargeColumns fieldnames).2, entry p.2 = some "1" → p = (n, col)) →
      parseChargePerc (inferChargeColumns fieldnames).1 (inferChargeColumns fieldnames).2 entry
        = some (n : Int)) ∧
    (∀ (cc : String) (onehot onehot2 : List (Nat × String)) (entry : String → Option String),
      parseChargePerc (some cc) onehot entry = parseChargePerc (some cc) onehot2 entry) ∧
    (∀ (cc : String) (onehot : List (Nat × String)) (entry : String → Option String)
      (s : String) (k : Int),
      entry "charge" = some s → pyIntParse s = some k →
      parseChargePerc (some cc) onehot entry = some k) ∧
    (∀ (fieldnames : List String), "charge" ∈ fieldnames →
      (inferChargeColumns fieldnames).1.isSome = true) ∧
    (∀ entry, parseChargePerc none [] entry = none) ∧
    (∀ (pep : List Char), '/' ∉ pep → '/' ∉ parsePeptidoformPerc pep none) := by
  refine ⟨?_, ?_, ?_, ?_, ?_, ?_⟩
  · intro fieldnames entry n col hcc hmem hmarker huniq
    rw [hcc]
    unfold parseChargePerc
    match honehot : (inferChargeColumns fieldnames).2, hmem with
    | o :: orest, hmem =>
      rw [honehot] at huniq
      have hfind : ((o :: orest).find? (fun p => entry p.2 == some "1")) = some (n, col) := by
        apply find?_eq_of_unique (o :: orest) (n, col) hmem (by simp [hmarker])
        intro y hy hpy
        exact huniq y hy (by simpa using hpy)
      rw [hfind]
      rfl
  · intro cc onehot onehot2 entry
    rfl
  · intro cc onehot entry s k hs hk
    unfold parseChargePerc
    rw [hs]
    simpa using hk
  · intro fieldnames h
    unfold inferChargeColumns chargeColumnOf
    simp only [List.foldl_cons, List.foldl_nil, if_pos h]
    by_cases h2 : ("Charge" : String) ∈ fieldnames
    · rw [if_pos h2]
      rfl
    · rw [if_neg h2]
      rfl
  · intro entry
    rfl
  · intro pep hp hcontra
    unfold parsePeptidoformPerc at hcontra
    exact hp (stripFlankPerc_subset pep '/' hcontra)

/-- Claim C6, witness: the three resolution modes at concrete headers and
rows. -/
theorem percolator_c6_charge_resolution_witness :
    parseChargePerc (inferChargeColumns ["specid", "charge2", "charge3", "peptide"]).1
      (inferChargeColumns ["specid", "charge2", "charge3", "peptide"]).2 c6Entry
      = some 3 ∧
    parseChargePerc (some "charge") [(2, "charge2")] c6Entry2 = some 4 ∧
    parseChargePerc none [] c6Entry = none ∧
    '/' ∉ parsePeptidoformPerc "K.ACDEK.F".toList none := by
  refine ⟨?_, ?_, ?_, ?_⟩
  · exact (percolator_c6_charge_resolution).1 ["specid", "charge2", "charge3", "peptide"]
      c6Entry 3 "charge3" rfl (by decide) rfl (by decide)
  · exact (percolator_c6_charge_resolution).2.2.1 "charge" [(2, "charge2")] c6Entry2 "4" 4
      rfl (by decide)
  · exact (percolator_c6_charge_resolution).2.2.2.2.1 c6Entry
  · exact (percolator_c6_charge_resolution).2.2.2.2.2 "K.ACDEK.F".toList (by decide)

/-!
Claim C9.
-/

/-- Claim C9: entering the writer on an existing target (a file with at
least one line) opens it in append mode: the session fieldnames are the
first-line header of the file, independent of the configured columns, no
header is written and the existing content is kept; a brand-new target gets
the configured header written and uses the configured columns; an existing
empty file is rejected. -/
theorem percolator_c9_append_header (columns columns2 : List String) (line : String)
    (rest : List String) :
    percolatorEnter columns (some (line :: rest))
      = Except.ok ((stripWS line.toList).asString.splitOn "\t", line :: rest) ∧
    percolatorEnter columns (some (line :: rest))
      = percolatorEnter columns2 (some (line :: rest)) ∧
    percolatorEnter columns none = Except.ok (columns, [headerLine columns]) ∧
    percolatorEnter columns (some []) = Except.error "not a valid Percolator Tab file" := by
  refine ⟨rfl, rfl, rfl, rfl⟩

/-!
Claim C10.
-/

/-- Claim C10: write_file opens the target in truncating write mode and
emits the configured header followed by the rows in the configured column
order, fully independent of any pre-existing file content or header. -/
theorem percolator_c10_write_file_truncates (columns : List String)
    (prior prior2 : Option (List String)) (entries : List (String → Option String)) :
    percolatorWriteFile columns prior entries = percolatorWriteFile columns prior2 entries ∧
    percolatorWriteFile columns prior entries
      = percolatorWriteLine (headerLine columns)
        :: entries.map (fun e => percolatorWriteLine (writeRowStr columns e)) ∧
    (percolatorWriteFile columns prior entries).head?
      = some (percolatorWriteLine (headerLine columns)) := by
  refine ⟨rfl, rfl, rfl⟩

end PsmSpec

